import Mathlib

/-
Verification of the `welly` curve module (src/welly/curve.py) against its
natural-language specification.

The embedding models numeric data with exact rationals (ℚ): the Python code
computes with IEEE floats, but every claim under study is about exact
structural behaviour (lengths, indices, branch selection, interpolation
identities), so ℚ is the faithful idealisation.  NumPy/SciPy library calls
(`np.linspace`, `np.digitize`, `np.interp`, `np.arange`, `scipy.interp1d`)
are modelled from their documented semantics.  Fallible Python operations
(out-of-range indexing, unbound locals, library `ValueError`s) are modelled
with `Option`/`Except`: a `none`/`error` result marks a raised exception.

The repository's `welly/utils.py` is not part of the sources provided; the
handful of helpers the curve module imports from it (`find_previous`,
`linear`, `flatten_list`, `find_edges`) are modelled from the specification
text and marked as such in their doc comments.
-/

namespace Welly

/-- The Curve data model (curve.py, class `Curve`): a sample sequence plus
basis geometry (`start`, `step`) and the `mnemonic` metadata field used by
the quality-test resolver.  The remaining descriptive metadata fields play
no role in any claim and are omitted. -/
structure Curve where
  samples : List ℚ
  start : ℚ
  step : ℚ
  mnemonic : String
deriving DecidableEq

/-- Model of `np.linspace(a, b, n, endpoint=True)`: `n` evenly spaced points
from `a` to `b` inclusive.  For `n ≤ 1` NumPy returns `[]` or `[a]`. -/
def linspace (a b : ℚ) (n : ℕ) : List ℚ :=
  if n ≤ 1 then List.replicate n a
  else (List.range n).map (fun i : ℕ => a + (i : ℚ) * ((b - a) / ((n : ℚ) - 1)))

/-- `Curve.stop` (curve.py:141-147): `start + (shape[0] - 1) * step`,
computed on the fly. -/
def stop (c : Curve) : ℚ :=
  c.start + ((c.samples.length : ℚ) - 1) * c.step

/-- `Curve.basis` (curve.py:149-158):
`np.linspace(start, stop, shape[0], endpoint=True)`. -/
def basis (c : Curve) : List ℚ :=
  linspace c.start (stop c) c.samples.length

theorem linspace_length (a b : ℚ) (n : ℕ) : (linspace a b n).length = n := by
  unfold linspace
  split <;> simp

theorem linspace_getD (a b : ℚ) (n : ℕ) (i : ℕ) (hn : 2 ≤ n) (hi : i < n) :
    (linspace a b n).getD i 0 = a + i * ((b - a) / ((n : ℚ) - 1)) := by
  unfold linspace
  rw [if_neg (by omega)]
  rw [List.getD_eq_getElem?_getD, List.getElem?_map, List.getElem?_range hi]
  rfl

theorem basis_length (c : Curve) : (basis c).length = c.samples.length :=
  linspace_length _ _ _

theorem basis_getD (c : Curve) (i : ℕ) (hi : i < c.samples.length) :
    (basis c).getD i 0 = c.start + i * c.step := by
  unfold basis
  rcases Nat.lt_or_ge c.samples.length 2 with h2 | h2
  · have hi0 : i = 0 := by omega
    have h1 : c.samples.length = 1 := by omega
    subst hi0
    unfold linspace
    rw [h1, if_pos (by norm_num)]
    simp
  · rw [linspace_getD _ _ _ _ h2 hi]
    unfold stop
    have hne : ((c.samples.length : ℚ) - 1) ≠ 0 := by
      have : (2 : ℚ) ≤ (c.samples.length : ℚ) := by exact_mod_cast h2
      intro h
      nlinarith
    field_simp

theorem stop_sub_div (c : Curve) (h2 : 2 ≤ c.samples.length) :
    (stop c - c.start) / ((c.samples.length : ℚ) - 1) = c.step := by
  have hne : ((c.samples.length : ℚ) - 1) ≠ 0 := by
    have : (2 : ℚ) ≤ (c.samples.length : ℚ) := by exact_mod_cast h2
    intro h
    nlinarith
  have hsub : stop c - c.start = ((c.samples.length : ℚ) - 1) * c.step := by
    unfold stop
    ring
  rw [hsub, mul_div_cancel_left₀ _ hne]

/-- C2: for every Curve with `N ≥ 1` samples: the derived basis has length
`N`, `basis[0] = start`, and `basis[N-1] = stop = start + (N-1)*step`. -/
theorem basis_geometry (c : Curve) (hN : 1 ≤ c.samples.length) :
    (basis c).length = c.samples.length ∧
    (basis c).getD 0 0 = c.start ∧
    (basis c).getD (c.samples.length - 1) 0 = stop c ∧
    stop c = c.start + ((c.samples.length : ℚ) - 1) * c.step := by
  refine ⟨basis_length c, ?_, ?_, rfl⟩
  · rw [basis_getD c 0 (by omega)]
    simp
  · rw [basis_getD c (c.samples.length - 1) (by omega)]
    unfold stop
    have : ((c.samples.length - 1 : ℕ) : ℚ) = (c.samples.length : ℚ) - 1 := by
      have := hN
      push_cast [Nat.cast_sub hN]
      ring
    rw [this]

/-- Witness for C2 at the spec's own example: samples `[1,2,3,4,5]`,
start 0, step 1, whence `basis = [0,1,2,3,4]` and `stop = 4`. -/
theorem basis_geometry_witness :
    (basis ⟨[1, 2, 3, 4, 5], 0, 1, "GR"⟩).length = 5 ∧
    (basis ⟨[1, 2, 3, 4, 5], 0, 1, "GR"⟩).getD 0 0 = 0 ∧
    (basis ⟨[1, 2, 3, 4, 5], 0, 1, "GR"⟩).getD 4 0 = stop ⟨[1, 2, 3, 4, 5], 0, 1, "GR"⟩ ∧
    stop ⟨[1, 2, 3, 4, 5], 0, 1, "GR"⟩ = 4 := by
  have h := basis_geometry ⟨[1, 2, 3, 4, 5], 0, 1, "GR"⟩ (by norm_num)
  refine ⟨h.1, h.2.1, h.2.2.1, ?_⟩
  rw [h.2.2.2]
  norm_num

/-- Modelled from the spec: `utils.find_previous` is imported by curve.py but
`welly/utils.py` is not among the provided sources.  Spec section 4.8: locate
the basis index at or before the query point, together with the fractional
distance of the query past that point; "behavior at or beyond the array bounds
(index N-1) is an edge case: the design must define it as use the edge sample
unextended rather than index out of range" — hence the returned index is
clamped to `N-2` so that the successor index used by `_read_at` stays in range,
and the fractional distance is measured from the clamped point (equal to 1 at
the stop depth, so interpolation yields the edge sample there). -/
def find_previous (a : List ℚ) (v : ℚ) : ℕ × ℚ :=
  let i := min (a.countP (fun t => decide (t ≤ v)) - 1) (a.length - 2)
  (i, (v - a.getD i 0) / (a.getD (i + 1) 0 - a.getD i 0))

/-- Modelled from the spec: `utils.linear`, the interpolation kernel applied by
`_read_at` — "linearly interpolate between that sample and its successor using
the fractional distance". -/
def linear (u v d : ℚ) : ℚ := u + d * (v - u)

/-- `Curve._read_at` (curve.py:563-590) at the default `interpolation='linear'`,
`index=False`: `i, d = utils.find_previous(self.basis, d, ...)` followed by
`utils.linear(self[i], self[i+1], d)`.  The two indexings are fallible —
`self[i+1]` raises `IndexError` when `i+1 == N` — hence the `Option` result,
with `none` marking a raised exception. -/
def read_at_scalar (c : Curve) (d : ℚ) : Option ℚ :=
  let p := find_previous (basis c) d
  match c.samples[p.1]?, c.samples[p.1 + 1]? with
  | some u, some v => some (linear u v p.2)
  | _, _ => none

/-- `Curve.read_at` (curve.py:592-608) for a scalar depth: iterating over the
scalar raises `TypeError` inside the `try`, and the `except` falls back to
`self._read_at(d)`. -/
def read_at (c : Curve) (d : ℚ) : Option ℚ :=
  read_at_scalar c d

/-- C1 counterexample: on the one-sample Curve `⟨[5], start 0, step 1⟩` the
query `d = stop` makes `_read_at` evaluate `self[i+1]` with `i+1 = 1` out of
range, so `read_at` raises instead of returning the last sample: the claim
fails at length `N = 1`. -/
theorem read_at_single_sample_counterexample :
    read_at ⟨[5], 0, 1, "GR"⟩ (stop ⟨[5], 0, 1, "GR"⟩) = none := by
  norm_num [read_at, read_at_scalar, find_previous, basis, stop, linspace,
    List.countP_cons, List.countP_nil]

/-- C1 amended: for every Curve of length `N ≥ 2` with positive step (the
data-model invariant), and every scalar query `d` at or beyond `stop`,
`read_at` with linear interpolation raises no out-of-range indexing fault, and
at `d = stop` it returns the last sample value unmodified. -/
theorem read_at_at_or_beyond_stop (c : Curve) (d : ℚ)
    (hN : 2 ≤ c.samples.length) (hstep : 0 < c.step) (hd : stop c ≤ d) :
    ∃ v, read_at c d = some v ∧
      (d = stop c → v = c.samples.getD (c.samples.length - 1) 0) := by
  have hbl : (basis c).length = c.samples.length := basis_length c
  have hcount : (basis c).countP (fun t => decide (t ≤ d)) = c.samples.length := by
    rw [← hbl]
    apply List.countP_eq_length.mpr
    intro t ht
    simp only [decide_eq_true_eq]
    unfold basis linspace at ht
    rw [if_neg (by omega)] at ht
    obtain ⟨i, hir, rfl⟩ := List.mem_map.mp ht
    have hi : i < c.samples.length := List.mem_range.mp hir
    rw [show stop c - c.start = ((c.samples.length : ℚ) - 1) * c.step by unfold stop; ring]
    have hne : ((c.samples.length : ℚ) - 1) ≠ 0 := by
      have : (2 : ℚ) ≤ (c.samples.length : ℚ) := by exact_mod_cast hN
      intro h
      nlinarith
    rw [mul_div_cancel_left₀ _ hne]
    have hiq : (i : ℚ) + 1 ≤ (c.samples.length : ℚ) := by exact_mod_cast hi
    have hstopd : c.start + ((c.samples.length : ℚ) - 1) * c.step ≤ d := hd
    nlinarith
  have hfp : find_previous (basis c) d =
      (c.samples.length - 2,
       (d - (basis c).getD (c.samples.length - 2) 0) /
         ((basis c).getD (c.samples.length - 2 + 1) 0 -
          (basis c).getD (c.samples.length - 2) 0)) := by
    have hmin : (c.samples.length - 1) ⊓ (c.samples.length - 2) =
        c.samples.length - 2 := by omega
    simp only [find_previous, hcount, hbl, hmin]
  have h1 : c.samples.length - 2 < c.samples.length := by omega
  have h2 : c.samples.length - 2 + 1 < c.samples.length := by omega
  have hs1 : c.samples[c.samples.length - 2]? =
      some (c.samples.getD (c.samples.length - 2) 0) := by
    rw [List.getElem?_eq_getElem h1, List.getD_eq_getElem?_getD,
      List.getElem?_eq_getElem h1]
    rfl
  have hs2 : c.samples[c.samples.length - 2 + 1]? =
      some (c.samples.getD (c.samples.length - 2 + 1) 0) := by
    rw [List.getElem?_eq_getElem h2, List.getD_eq_getElem?_getD,
      List.getElem?_eq_getElem h2]
    rfl
  have hb1 : (basis c).getD (c.samples.length - 2) 0 =
      c.start + ((c.samples.length : ℚ) - 2) * c.step := by
    rw [basis_getD c _ h1]
    congr 1
    congr 1
    push_cast [Nat.cast_sub (show 2 ≤ c.samples.length from hN)]
    ring
  have hb2 : (basis c).getD (c.samples.length - 2 + 1) 0 =
      c.start + ((c.samples.length : ℚ) - 1) * c.step := by
    rw [basis_getD c _ h2]
    congr 1
    congr 1
    push_cast [Nat.cast_sub (show 2 ≤ c.samples.length from hN)]
    ring
  unfold read_at read_at_scalar
  rw [hfp]
  simp only [hs1, hs2]
  refine ⟨_, rfl, ?_⟩
  intro hds
  subst hds
  rw [hb1, hb2]
  have hfrac : (stop c - (c.start + ((c.samples.length : ℚ) - 2) * c.step)) /
      (c.start + ((c.samples.length : ℚ) - 1) * c.step -
       (c.start + ((c.samples.length : ℚ) - 2) * c.step)) = 1 := by
    rw [show stop c = c.start + ((c.samples.length : ℚ) - 1) * c.step from rfl]
    rw [show c.start + ((c.samples.length : ℚ) - 1) * c.step -
        (c.start + ((c.samples.length : ℚ) - 2) * c.step) = c.step by ring]
    exact div_self (ne_of_gt hstep)
  rw [hfrac]
  unfold linear
  have : c.samples.length - 2 + 1 = c.samples.length - 1 := by omega
  rw [this]
  ring

/-- Witness for the amended C1: on the Curve `⟨[1,2,3], start 0, step 1⟩`
(stop = 2), `read_at` at the stop depth returns the last sample `3`. -/
theorem read_at_at_or_beyond_stop_witness :
    read_at ⟨[1, 2, 3], 0, 1, "GR"⟩ 2 = some 3 := by
  obtain ⟨v, hv, hlast⟩ := read_at_at_or_beyond_stop ⟨[1, 2, 3], 0, 1, "GR"⟩ 2
    (by norm_num) (by norm_num) (by norm_num [stop])
  rw [hv, hlast (by norm_num [stop])]
  rfl

/-- Model of the linear interpolant `scipy.interpolate.interp1d(xs, ys,
kind='linear', bounds_error=False)` evaluated at one point `x`: `none` encodes
a query outside the data range (where the fill value applies).  `interp1d`
demands at least two data points; `xs` is strictly increasing for the Curve
bases it is built over. -/
def interpLinear (xs ys : List ℚ) (x : ℚ) : Option ℚ :=
  if xs.length < 2 then none
  else if x < xs.getD 0 0 ∨ xs.getD (xs.length - 1) 0 < x then none
  else
    some (ys.getD (min (xs.countP (fun t => decide (t ≤ x)) - 1) (xs.length - 2)) 0 +
      (x - xs.getD (min (xs.countP (fun t => decide (t ≤ x)) - 1) (xs.length - 2)) 0) *
        (ys.getD (min (xs.countP (fun t => decide (t ≤ x)) - 1) (xs.length - 2) + 1) 0 -
         ys.getD (min (xs.countP (fun t => decide (t ≤ x)) - 1) (xs.length - 2)) 0) /
        (xs.getD (min (xs.countP (fun t => decide (t ≤ x)) - 1) (xs.length - 2) + 1) 0 -
         xs.getD (min (xs.countP (fun t => decide (t ≤ x)) - 1) (xs.length - 2)) 0))

/-- `interp1d` with `fill_value=undefined` (curve.py:550-555): out-of-range
query points receive the fill value; a `none` fill models the NaN default. -/
def interpFill (xs ys : List ℚ) (fill : Option ℚ) (x : ℚ) : Option ℚ :=
  match interpLinear xs ys x with
  | some v => some v
  | none => fill

/-- Shared tail of `Curve.to_basis` (curve.py:542-561) once the effective
`(new_start, new_stop, new_step)` triple is resolved:
`steps = np.ceil((new_stop - new_start)/new_step)`, a `steps+1`-point
linspace, then evaluation of the interpolant built over the original
basis/samples.  An overall `none` marks a raised exception: `interp1d` raises
on fewer than two data points, `new_step = 0` makes `steps` infinite
(`OverflowError` at `int(steps)`), and a negative `steps` makes `np.linspace`
raise. -/
def to_basis_geo (c : Curve) (new_start new_stop new_step : ℚ)
    (undefined : Option ℚ) : Option (List (Option ℚ) × ℚ × ℚ) :=
  if c.samples.length < 2 then none
  else if new_step = 0 then none
  else if ⌈(new_stop - new_start) / new_step⌉ < 0 then none
  else
    some ((linspace new_start new_stop
        (⌈(new_stop - new_start) / new_step⌉.toNat + 1)).map
          (fun x => interpFill (basis c) c.samples undefined x),
      new_start, new_step)

/-- `Curve.to_basis` (curve.py:501-561): resolve the effective geometry — an
explicit start/stop/step override the supplied basis, which overrides the
curve's own geometry — then resample.  Indexing the supplied basis is
fallible: `basis[0]`/`basis[-1]` raise on an empty array, and `basis[1]`
raises on a one-point array (evaluated only when no `step` override is
given). -/
def to_basis (c : Curve) (basisArg : Option (List ℚ))
    (start0 stop0 step0 : Option ℚ) (undefined : Option ℚ) :
    Option (List (Option ℚ) × ℚ × ℚ) :=
  match basisArg with
  | none => to_basis_geo c (start0.getD c.start) (stop0.getD (stop c))
      (step0.getD c.step) undefined
  | some b =>
      if (start0 = none ∨ stop0 = none) ∧ b.length = 0 then none
      else if step0 = none ∧ b.length < 2 then none
      else to_basis_geo c (start0.getD (b.getD 0 0))
        (stop0.getD (b.getD (b.length - 1) 0))
        (step0.getD (b.getD 1 0 - b.getD 0 0)) undefined

theorem countP_range_le (n i : ℕ) (hi : i < n) :
    (List.range n).countP (fun k => decide (k ≤ i)) = i + 1 := by
  induction n with
  | zero => omega
  | succ m ih =>
      rw [List.range_succ, List.countP_append]
      rcases Nat.lt_or_ge i m with him | him
      · rw [ih him]
        have hone : (List.countP (fun k => decide (k ≤ i)) [m]) = 0 := by
          simp only [List.countP_cons, List.countP_nil, decide_eq_true_eq]
          simp [Nat.not_le.mpr (by omega : i < m)]
        rw [hone]
      · have him2 : i = m := by omega
        subst him2
        have hall : (List.range i).countP (fun k => decide (k ≤ i)) =
            (List.range i).length := by
          apply List.countP_eq_length.mpr
          intro a ha
          simp only [decide_eq_true_eq]
          exact le_of_lt (List.mem_range.mp ha)
        rw [hall]
        simp

theorem countP_basis_le (c : Curve) (i : ℕ) (hN : 2 ≤ c.samples.length)
    (hstep : 0 < c.step) (hi : i < c.samples.length) :
    (basis c).countP (fun t => decide (t ≤ (basis c).getD i 0)) = i + 1 := by
  have hx : (basis c).getD i 0 = c.start + (i : ℚ) * c.step := basis_getD c i hi
  rw [hx]
  unfold basis linspace
  rw [if_neg (by omega)]
  rw [List.countP_map]
  have hcongr : ∀ k ∈ List.range c.samples.length,
      (((fun t => decide (t ≤ c.start + (i : ℚ) * c.step)) ∘
        (fun k : ℕ => c.start + (k : ℚ) *
          ((stop c - c.start) / ((c.samples.length : ℚ) - 1)))) k = true ↔
      (fun k : ℕ => decide (k ≤ i)) k = true) := by
    intro k _
    simp only [Function.comp_apply, decide_eq_true_eq]
    rw [stop_sub_div c hN]
    constructor
    · intro h
      by_contra hki
      have hki2 : (i : ℚ) < (k : ℚ) := by exact_mod_cast Nat.lt_of_not_le hki
      nlinarith
    · intro h
      have hki : (k : ℚ) ≤ (i : ℚ) := by exact_mod_cast h
      nlinarith
  rw [List.countP_congr hcongr]
  exact countP_range_le _ _ hi

/-- Evaluating the interp1d linear interpolant exactly at the `i`-th knot of
the curve's own basis returns the `i`-th sample. -/
theorem interpLinear_at_knot (c : Curve) (i : ℕ) (hN : 2 ≤ c.samples.length)
    (hstep : 0 < c.step) (hi : i < c.samples.length) :
    interpLinear (basis c) c.samples ((basis c).getD i 0) =
      some (c.samples.getD i 0) := by
  have hbl : (basis c).length = c.samples.length := basis_length c
  have hx : (basis c).getD i 0 = c.start + (i : ℚ) * c.step := basis_getD c i hi
  have hb0 : (basis c).getD 0 0 = c.start := by
    rw [basis_getD c 0 (by omega)]
    simp
  have hblast : (basis c).getD (c.samples.length - 1) 0 =
      c.start + ((c.samples.length : ℚ) - 1) * c.step := by
    rw [basis_getD c _ (by omega)]
    push_cast [Nat.cast_sub (show 1 ≤ c.samples.length by omega)]
    ring
  have hcount := countP_basis_le c i hN hstep hi
  unfold interpLinear
  rw [hbl, hcount]
  rw [if_neg (by omega : ¬ c.samples.length < 2)]
  rw [if_neg ?hbound]
  case hbound =>
    push_neg
    constructor
    · rw [hb0, hx]
      nlinarith [mul_nonneg (show (0:ℚ) ≤ (i:ℚ) from Nat.cast_nonneg i)
        (le_of_lt hstep)]
    · rw [hblast, hx]
      have hiq : (i : ℚ) + 1 ≤ (c.samples.length : ℚ) := by exact_mod_cast hi
      nlinarith
  simp only [Nat.add_sub_cancel]
  rcases Nat.lt_or_ge i (c.samples.length - 1) with hlt | hge
  · have hmin : min i (c.samples.length - 2) = i := by omega
    rw [hmin, hx]
    rw [sub_self, zero_mul, zero_div, add_zero]
  · have hieq : i = c.samples.length - 1 := by omega
    subst hieq
    have hmin : min (c.samples.length - 1) (c.samples.length - 2) =
        c.samples.length - 2 := by omega
    have hsucc : c.samples.length - 2 + 1 = c.samples.length - 1 := by omega
    have hb2 : (basis c).getD (c.samples.length - 2) 0 =
        c.start + ((c.samples.length : ℚ) - 2) * c.step := by
      rw [basis_getD c _ (by omega)]
      push_cast [Nat.cast_sub (show 2 ≤ c.samples.length from hN)]
      ring
    rw [hmin, hsucc, hblast, hb2]
    rw [show c.start + ((c.samples.length : ℚ) - 1) * c.step -
        (c.start + ((c.samples.length : ℚ) - 2) * c.step) = c.step from by ring]
    congr 1
    field_simp

/-- C3 counterexample: a one-sample Curve.  `to_basis(basis=c.basis)` reads
`basis[1] - basis[0]` from the supplied one-point basis (curve.py:540), which
raises `IndexError` (and `interp1d` would reject a single data point anyway),
so the round trip faults rather than reproducing the sample. -/
theorem to_basis_single_sample_counterexample :
    to_basis ⟨[7], 0, 1, "GR"⟩ (some (basis ⟨[7], 0, 1, "GR"⟩))
      none none none none = none := by
  norm_num [to_basis, basis, linspace, stop]

/-- C3 amended: for every Curve with at least two (finite) samples and
positive step (the data-model invariant), `to_basis(basis=c.basis)` with the
default linear interpolation returns exactly the original samples (no NaN
fills) together with the original start and step: identity resampling, exact
in rational arithmetic.  At `N = 1` the claim fails (see the
counterexample). -/
theorem to_basis_identity (c : Curve) (hN : 2 ≤ c.samples.length)
    (hstep : 0 < c.step) :
    to_basis c (some (basis c)) none none none none =
      some (c.samples.map some, c.start, c.step) := by
  have hbl : (basis c).length = c.samples.length := basis_length c
  have hb0 : (basis c).getD 0 0 = c.start := by
    rw [basis_getD c 0 (by omega)]
    simp
  have hb1 : (basis c).getD 1 0 = c.start + c.step := by
    rw [basis_getD c 1 (by omega)]
    simp
  have hblast : (basis c).getD ((basis c).length - 1) 0 = stop c := by
    rw [hbl, basis_getD c _ (by omega)]
    unfold stop
    push_cast [Nat.cast_sub (show 1 ≤ c.samples.length by omega)]
    ring
  simp only [to_basis]
  rw [if_neg ?g1]
  case g1 =>
    rintro ⟨-, h0⟩
    rw [hbl] at h0
    omega
  rw [if_neg ?g2]
  case g2 =>
    rintro ⟨-, h0⟩
    rw [hbl] at h0
    omega
  simp only [Option.getD_none, Option.getD_some] at *
  rw [hb0, hb1, hblast]
  have hstepeq : c.start + c.step - c.start = c.step := by ring
  rw [hstepeq]
  unfold to_basis_geo
  rw [if_neg (by omega)]
  rw [if_neg (ne_of_gt hstep)]
  have hratio : (stop c - c.start) / c.step = (c.samples.length : ℚ) - 1 := by
    rw [show stop c - c.start = ((c.samples.length : ℚ) - 1) * c.step by
      unfold stop; ring]
    rw [mul_div_assoc, div_self (ne_of_gt hstep), mul_one]
  have hceil : ⌈(stop c - c.start) / c.step⌉ = (c.samples.length : ℤ) - 1 := by
    rw [hratio]
    rw [show (c.samples.length : ℚ) - 1 = (((c.samples.length : ℤ) - 1 : ℤ) : ℚ) by
      push_cast; ring]
    exact Int.ceil_intCast _
  rw [hceil]
  rw [if_neg (by omega)]
  have htopn : ((c.samples.length : ℤ) - 1).toNat + 1 = c.samples.length := by
    omega
  rw [htopn]
  rw [show linspace c.start (stop c) c.samples.length = basis c from rfl]
  refine congrArg _ (congrArg (fun l => (l, c.start, c.step)) ?_)
  apply List.ext_getElem
  · simp [hbl]
  · intro n h1 h2
    rw [List.getElem_map, List.getElem_map]
    have hn : n < c.samples.length := by
      rw [List.length_map, hbl] at h1
      exact h1
    have hknot : (basis c)[n] = (basis c).getD n 0 := by
      rw [List.getD_eq_getElem?_getD, List.getElem?_eq_getElem (by omega)]
      rfl
    have hsamp : c.samples[n] = c.samples.getD n 0 := by
      rw [List.getD_eq_getElem?_getD, List.getElem?_eq_getElem hn]
      rfl
    rw [hknot, hsamp]
    unfold interpFill
    rw [interpLinear_at_knot c n hN hstep hn]

/-- Witness for the amended C3: the Curve `⟨[1,2,3], start 0, step 1⟩`
resampled onto its own basis reproduces `[1,2,3]` exactly. -/
theorem to_basis_identity_witness :
    to_basis ⟨[1, 2, 3], 0, 1, "GR"⟩ (some (basis ⟨[1, 2, 3], 0, 1, "GR"⟩))
      none none none none = some ([some 1, some 2, some 3], 0, 1) := by
  have h := to_basis_identity ⟨[1, 2, 3], 0, 1, "GR"⟩ (by norm_num) (by norm_num)
  simpa using h

/-- One-sample `np.digitize(x, bins, right)` for increasing `bins`: the zone
index of `x`, i.e. the number of bin edges at or below `x` (strictly below
when `right` is true). -/
def digitize1 (x : ℚ) (bins : List ℚ) (right : Bool) : ℕ :=
  if right then bins.countP (fun b => decide (b < x))
  else bins.countP (fun b => decide (b ≤ x))

/-- `Curve.block` (curve.py:708-780) on the path where explicit `cutoffs` are
given and neither `values` nor `function` nor `n_bins` is supplied: the
returned Curve carries `np.digitize(self, cutoffs, right)` as its data, with
all params copied unchanged. -/
def block_simple (c : Curve) (cutoffs : List ℚ) (right : Bool) : Curve :=
  { c with samples :=
      c.samples.map (fun x => ((digitize1 x cutoffs right : ℕ) : ℚ)) }

/-- `np.amin` over the sample list (welly only calls it on nonempty data). -/
def amin (l : List ℚ) : ℚ := l.foldl min (l.headD 0)

/-- `np.amax` over the sample list (welly only calls it on nonempty data). -/
def amax (l : List ℚ) : ℚ := l.foldl max (l.headD 0)

/-- The cutoffs computed by `Curve.block` on the `n_bins` path
(curve.py:744-747): `np.linspace(mi, ma, n_bins + 1)` with only the LAST
point dropped (`cutoffs[:-1]`). -/
def block_nbins_cutoffs (c : Curve) (n_bins : ℕ) : List ℚ :=
  (linspace (amin c.samples) (amax c.samples) (n_bins + 1)).dropLast

/-- Modelled from the spec: the tops half of `utils.find_edges` (imported by
curve.py from the absent `welly/utils.py`).  Spec section 4.9: contiguous runs
of identical zone index are identified by edge detection on the zone-index
array — the tops are position 0 plus every position whose value differs from
its predecessor. -/
def find_edges_tops (a : List ℚ) : List ℕ :=
  0 :: (List.range (a.length - 1)).filterMap
    (fun i => if a.getD (i + 1) 0 = a.getD i 0 then none else some (i + 1))

/-- Modelled from the spec: `utils.find_edges` returns the zone tops together
with the zone-index values at those tops. -/
def find_edges (a : List ℚ) : List ℕ × List ℚ :=
  (find_edges_tops a, (find_edges_tops a).map (fun i => a.getD i 0))

/-- The Python slice assignment `data[lo:hi] = v` (and `data[lo:] = v` with
`hi = len`). -/
def setRange (d : List ℚ) (lo hi : ℕ) (v : ℚ) : List ℚ :=
  (List.range d.length).map (fun i => if lo ≤ i ∧ i < hi then v else d.getD i 0)

/-- The Python slice read `l[lo:hi]`. -/
def slice (l : List ℚ) (lo hi : ℕ) : List ℚ := (l.drop lo).take (hi - lo)

/-- `Curve.block` (curve.py:754-780) on the reduction-function path
(`function` supplied, `values` absent): digitize, locate the zone tops, set
each interior span `data[top:base]` to `f` of the original samples in the
span, then set the trailing segment `data[base:]` where `base` is the loop
variable left over from the final iteration of
`for top, base in zip(tops[:-1], tops[1:])`.  When the digitized data has a
single zone that loop body never runs, so `base` is an unbound local and
Python raises `NameError` — modelled as `none`. -/
def block_reduce (c : Curve) (cutoffs : List ℚ) (right : Bool)
    (f : List ℚ → ℚ) : Option (List ℚ) :=
  let data0 := c.samples.map (fun x => ((digitize1 x cutoffs right : ℕ) : ℚ))
  let tops := find_edges_tops data0
  let pairs := tops.zip tops.tail
  if pairs.length = 0 then none
  else
    let data1 := pairs.foldl
      (fun d p => setRange d p.1 p.2 (f (slice c.samples p.1 p.2))) data0
    some (setRange data1 (tops.getLastD 0) c.samples.length
      (f (slice c.samples (tops.getLastD 0) c.samples.length)))

theorem countP_cutoffs_fix (cutoffs : List ℚ) (off z : ℕ)
    (hcut : ∀ j, j < cutoffs.length →
      ((j + off : ℕ) : ℚ) < cutoffs.getD j 0 ∧
        cutoffs.getD j 0 ≤ ((j + off : ℕ) : ℚ) + 1) :
    cutoffs.countP (fun b => decide (b ≤ (z : ℚ))) =
      min (z - off) cutoffs.length := by
  induction cutoffs generalizing off with
  | nil => simp
  | cons c0 cs ih =>
      have h0 := hcut 0 (by simp)
      rw [List.getD_cons_zero] at h0
      rw [Nat.zero_add] at h0
      have hcs : ∀ j, j < cs.length →
          ((j + (off + 1) : ℕ) : ℚ) < cs.getD j 0 ∧
            cs.getD j 0 ≤ ((j + (off + 1) : ℕ) : ℚ) + 1 := by
        intro j hj
        have h := hcut (j + 1) (by simpa using Nat.succ_lt_succ hj)
        rw [List.getD_cons_succ] at h
        have harith : j + 1 + off = j + (off + 1) := by omega
        rw [harith] at h
        exact h
      rw [List.countP_cons, ih (off + 1) hcs]
      rcases Nat.lt_or_ge z (off + 1) with hz | hz
      · have hc0 : ¬ (c0 ≤ (z : ℚ)) := by
          intro hle
          have h1 : ((off : ℕ) : ℚ) < (z : ℚ) := lt_of_lt_of_le h0.1 hle
          have h2 : off < z := by exact_mod_cast h1
          omega
        simp only [hc0, decide_eq_true_eq, if_false, List.length_cons]
        omega
      · have hc0 : c0 ≤ (z : ℚ) := by
          refine le_trans h0.2 ?_
          have : ((off : ℕ) : ℚ) + 1 ≤ (z : ℚ) := by
            have h3 : (off + 1 : ℕ) ≤ z := hz
            exact_mod_cast h3
          exact this
        have hgoal : (decide (c0 ≤ (z:ℚ))) = true := by simpa using hc0
        rw [if_pos hgoal]
        simp only [List.length_cons]
        omega

theorem digitize1_le_length (x : ℚ) (bins : List ℚ) (right : Bool) :
    digitize1 x bins right ≤ bins.length := by
  unfold digitize1
  split <;> exact List.countP_le_length _

theorem digitize1_fix (cutoffs : List ℚ) (x : ℚ)
    (hcut : ∀ j, j < cutoffs.length →
      (j : ℚ) < cutoffs.getD j 0 ∧ cutoffs.getD j 0 ≤ (j : ℚ) + 1) :
    digitize1 ((digitize1 x cutoffs false : ℕ) : ℚ) cutoffs false =
      digitize1 x cutoffs false := by
  have hz : digitize1 x cutoffs false ≤ cutoffs.length :=
    digitize1_le_length x cutoffs false
  conv_lhs => rw [digitize1]
  rw [if_neg (by simp)]
  rw [countP_cutoffs_fix cutoffs 0 (digitize1 x cutoffs false)
    (by simpa using hcut)]
  omega

/-- C6 counterexample: with cutoffs `[2]` on the Curve `⟨[1,3], start 0,
step 1⟩`, the first blocking yields zone indices `[0, 1]`, but re-blocking
that zone-index curve with the same cutoffs digitizes the indices themselves
(`0 < 2`, `1 < 2`) into `[0, 0]`: blocking with fixed cutoffs is not
idempotent in general. -/
theorem block_idempotence_counterexample :
    block_simple (block_simple ⟨[1, 3], 0, 1, "GR"⟩ [2] false) [2] false ≠
      block_simple ⟨[1, 3], 0, 1, "GR"⟩ [2] false := by
  norm_num [block_simple, digitize1, List.countP_cons, List.countP_nil,
    Curve.mk.injEq]

/-- C6 amended: blocking with fixed cutoffs `c_0 < c_1 < ...` is idempotent
(re-blocking the zone-index curve reproduces the same zone assignment)
precisely when each cutoff sits in the interval `(j, j+1]` above its own
index — e.g. a single cutoff in `(0, 1]` — so that the integer zone codes are
fixed points of the digitization; for general cutoffs the second application
re-digitizes the zone codes and changes the assignment (see the
counterexample).  Stated for the default `right=False`. -/
theorem block_idempotent_unit_cutoffs (c : Curve) (cutoffs : List ℚ)
    (hcut : ∀ j, j < cutoffs.length →
      (j : ℚ) < cutoffs.getD j 0 ∧ cutoffs.getD j 0 ≤ (j : ℚ) + 1) :
    block_simple (block_simple c cutoffs false) cutoffs false =
      block_simple c cutoffs false := by
  unfold block_simple
  simp only [List.map_map]
  congr 1
  apply List.map_congr_left
  intro x _
  simp only [Function.comp_apply]
  exact congrArg _ (digitize1_fix cutoffs x hcut)

/-- Witness for the amended C6: cutoff `[1/2]` (inside `(0,1]`) on the Curve
`⟨[0,1], start 0, step 1⟩`: blocking twice equals blocking once. -/
theorem block_idempotent_unit_cutoffs_witness :
    block_simple (block_simple ⟨[0, 1], 0, 1, "GR"⟩ [1/2] false) [1/2] false =
      block_simple ⟨[0, 1], 0, 1, "GR"⟩ [1/2] false := by
  apply block_idempotent_unit_cutoffs
  intro j hj
  have hj0 : j = 0 := by simpa using hj
  subst hj0
  norm_num

/-- C7 counterexample: samples `[0,1,2,3,4]` (min 0, max 4) with
`n_bins = 2`.  The claim says the cutoffs are the `n_bins - 1 = 1` interior
boundaries, excluding min and max, i.e. `[2]`; the code computes
`np.linspace(0, 4, 3)[:-1] = [0, 2]` — two cutoffs, *including* the
minimum. -/
theorem block_nbins_counterexample :
    block_nbins_cutoffs ⟨[0, 1, 2, 3, 4], 0, 1, "GR"⟩ 2 = [0, 2] ∧
    (block_nbins_cutoffs ⟨[0, 1, 2, 3, 4], 0, 1, "GR"⟩ 2).length ≠ 2 - 1 ∧
    amin [0, 1, 2, 3, 4] ∈ block_nbins_cutoffs ⟨[0, 1, 2, 3, 4], 0, 1, "GR"⟩ 2 := by
  have h : block_nbins_cutoffs ⟨[0, 1, 2, 3, 4], 0, 1, "GR"⟩ 2 = [0, 2] := by
    norm_num [block_nbins_cutoffs, linspace, amin, amax,
      List.range_succ, List.dropLast]
  refine ⟨h, ?_, ?_⟩
  · rw [h]
    norm_num
  · rw [h]
    have hmin : amin [0, 1, 2, 3, 4] = 0 := by norm_num [amin]
    rw [hmin]
    simp

/-- C7 amended: on the `n_bins > 0` path (cutoffs, values and function not
supplied), `block` computes the cutoffs as the first `n_bins` boundaries of
`n_bins` equal-width bins spanning `[min(samples), max(samples)]`: `n_bins`
values `min + j*(max-min)/n_bins` for `j = 0, ..., n_bins - 1` — the minimum
is included and only the maximum is excluded (not `n_bins - 1` interior-only
boundaries as claimed). -/
theorem block_nbins_cutoffs_spec (c : Curve) (n_bins : ℕ) (hn : 0 < n_bins)
    (_hne : c.samples ≠ []) :
    (block_nbins_cutoffs c n_bins).length = n_bins ∧
    ∀ j, j < n_bins → (block_nbins_cutoffs c n_bins).getD j 0 =
      amin c.samples + (j : ℚ) *
        ((amax c.samples - amin c.samples) / (n_bins : ℚ)) := by
  constructor
  · unfold block_nbins_cutoffs
    rw [List.length_dropLast, linspace_length]
    omega
  · intro j hj
    unfold block_nbins_cutoffs
    have hjlt : j < (linspace (amin c.samples) (amax c.samples)
        (n_bins + 1)).dropLast.length := by
      rw [List.length_dropLast, linspace_length]
      omega
    have hjlt2 : j < (linspace (amin c.samples) (amax c.samples)
        (n_bins + 1)).length := by
      rw [linspace_length]
      omega
    rw [List.getD_eq_getElem?_getD, List.getElem?_eq_getElem hjlt]
    rw [Option.getD_some, List.getElem_dropLast]
    have hval := linspace_getD (amin c.samples) (amax c.samples) (n_bins + 1) j
      (by omega) (by omega)
    rw [List.getD_eq_getElem?_getD, List.getElem?_eq_getElem hjlt2,
      Option.getD_some] at hval
    rw [hval]
    have hcast : ((n_bins + 1 : ℕ) : ℚ) - 1 = (n_bins : ℚ) := by
      push_cast
      ring
    rw [hcast]

/-- Witness for the amended C7: samples `[0,1,2,3,4]`, `n_bins = 2`: two
cutoffs, and the second one is `min + 1*(max-min)/2`. -/
theorem block_nbins_cutoffs_spec_witness :
    (block_nbins_cutoffs ⟨[0, 1, 2, 3, 4], 0, 1, "GR"⟩ 2).length = 2 ∧
    (block_nbins_cutoffs ⟨[0, 1, 2, 3, 4], 0, 1, "GR"⟩ 2).getD 1 0 =
      amin [0, 1, 2, 3, 4] + (1 : ℚ) *
        ((amax [0, 1, 2, 3, 4] - amin [0, 1, 2, 3, 4]) / 2) := by
  have h := block_nbins_cutoffs_spec ⟨[0, 1, 2, 3, 4], 0, 1, "GR"⟩ 2
    (by norm_num) (by simp)
  refine ⟨h.1, ?_⟩
  have h2 := h.2 1 (by norm_num)
  simpa using h2

/-- C8 failing input: the constant Curve `⟨[1,1,1], start 0, step 1⟩` blocked
with cutoffs `[5]` and the reduction `mean`.  The digitized data `[0,0,0]`
has a single zone, the edge-iteration loop never runs, and `data[base:]`
references the unbound loop variable `base`: Python raises `NameError`
instead of transforming the (only, hence final) zone. -/
theorem block_reduce_single_zone_failing :
    block_reduce ⟨[1, 1, 1], 0, 1, "GR"⟩ [5] false
      (fun l => l.sum / (l.length : ℚ)) = none := by
  norm_num [block_reduce, find_edges_tops, digitize1, List.countP_cons,
    List.countP_nil, List.range_succ, List.filterMap_cons]

/-- A quality test: Python test functions are keyed by their `__name__` and
invoked with the curve as sole argument; the claims under study concern
boolean-valued tests. -/
structure QTest where
  name : String
  fn : Curve → Bool

/-- The quality-test mapping (spec section 3): keys are mnemonics, alias-group
names, or the `each` wildcard; values are lists of test entries, possibly
containing `None` (modelled by `none`).  An association list models the
Python dict (unique keys; `lookup` finds the binding). -/
abbrev TestMap := List (String × List (Option QTest))

/-- The alias mapping: alias-group name to the member mnemonics. -/
abbrev AliasMap := List (String × List String)

/-- `Curve.get_alias` (curve.py:256-262): every alias-mapping key whose member
list contains the curve's mnemonic. -/
def get_alias (c : Curve) (am : AliasMap) : List String :=
  (am.filter (fun p => p.2.contains c.mnemonic)).map (fun p => p.1)

/-- Modelled from the spec: `utils.flatten_list` (from the absent
`welly/utils.py`) flattens one level of list nesting; the alias lookups
feeding it use `tests.get(a)` with no default, so a missing group appears as
`none` and contributes nothing (spec section 4.4 accumulates "all tests
registered under every alias group containing the mnemonic"). -/
def flatten_list {α : Type} (l : List (Option (List α))) : List α :=
  (l.filterMap id).flatten

/-- Python `tests.get(k, [])` over the association-list dict model. -/
def dictGetD (m : TestMap) (k : String) : List (Option QTest) :=
  (m.lookup k).getD []

/-- The gathering step shared verbatim by `quality`, `qflag` and `qflags`
(curve.py:626-630, 656-660, 680-684): wildcard entries (`each`/`Each`/`EACH`),
then the entries under the curve's own mnemonic, then the entries of every
alias group containing the mnemonic; falsy (`None`) entries are then filtered
out (`filter(None, this_tests)`). -/
def gatherTests (c : Curve) (tests : TestMap) (am : AliasMap) :
    List QTest :=
  (dictGetD tests "each" ++ dictGetD tests "Each" ++ dictGetD tests "EACH"
    ++ dictGetD tests c.mnemonic
    ++ flatten_list ((get_alias c am).map
        (fun a => tests.lookup a))).filterMap id

/-- One step of the Python dict comprehension
`{test.__name__: test(self) for test in ts}`: a repeated key keeps its
position but its value is overwritten. -/
def dictInsert (m : List (String × Bool)) (k : String) (v : Bool) :
    List (String × Bool) :=
  if m.any (fun p => p.1 == k) then
    m.map (fun p => if p.1 == k then (k, v) else p)
  else m ++ [(k, v)]

/-- Execute a test list, building the result mapping keyed by test name. -/
def runTests (c : Curve) (ts : List QTest) : List (String × Bool) :=
  ts.foldl (fun m t => dictInsert m t.name (t.fn c)) []

/-- The test list `quality` actually executes (curve.py:626-635): the gathered
tests, unless the mapping explicitly registers an empty (falsy) value under
the curve's mnemonic — `if not tests.get(self.mnemonic, 1): this_tests = []` —
which suppresses everything. -/
def resolvedTests (c : Curve) (tests : TestMap) (am : AliasMap) :
    List QTest :=
  match tests.lookup c.mnemonic with
  | some [] => []
  | _ => gatherTests c tests am

/-- `Curve.quality` (curve.py:610-637). -/
def quality (c : Curve) (tests : TestMap) (am : AliasMap) :
    List (String × Bool) :=
  runTests c (resolvedTests c tests am)

/-- `Curve.qflag` (curve.py:639-662): same gathering as `quality`, but no
empty-override suppression. -/
def qflag (c : Curve) (tests : TestMap) (am : AliasMap) :
    List (String × Bool) :=
  runTests c (gatherTests c tests am)

/-- `Curve.qflags` (curve.py:664-686): a textual copy of `qflag`. -/
def qflags (c : Curve) (tests : TestMap) (am : AliasMap) :
    List (String × Bool) :=
  runTests c (gatherTests c tests am)

/-- `Curve.quality_score` (curve.py:688-706): `sum(results)/len(results)`
over the `quality` result values (booleans summed as 0/1), `-1` when there
are none. -/
def quality_score (c : Curve) (tests : TestMap) (am : AliasMap) : ℚ :=
  if (quality c tests am).length = 0 then -1
  else ((quality c tests am).countP (fun p => p.2) : ℚ) /
    ((quality c tests am).length : ℚ)

theorem dictInsert_values (m : List (String × Bool)) (k : String) (v : Bool)
    (b : Bool) (hm : ∀ p ∈ m, p.2 = b) (hv : v = b) :
    ∀ p ∈ dictInsert m k v, p.2 = b := by
  intro p hp
  unfold dictInsert at hp
  by_cases hany : (m.any (fun p => p.1 == k)) = true
  · rw [if_pos hany] at hp
    obtain ⟨q, hq, hpq⟩ := List.mem_map.mp hp
    by_cases hqk : (q.1 == k) = true
    · rw [if_pos hqk] at hpq
      rw [← hpq]
      exact hv
    · rw [if_neg hqk] at hpq
      rw [← hpq]
      exact hm q hq
  · rw [if_neg hany] at hp
    rcases List.mem_append.mp hp with h | h
    · exact hm p h
    · rw [List.mem_singleton.mp h]
      exact hv

theorem runTests_fold_values (c : Curve) (b : Bool) (ts : List QTest) :
    ∀ (m : List (String × Bool)), (∀ p ∈ m, p.2 = b) →
      (∀ t ∈ ts, t.fn c = b) →
      ∀ p ∈ ts.foldl (fun m t => dictInsert m t.name (t.fn c)) m, p.2 = b := by
  induction ts with
  | nil =>
      intro m hm _ p hp
      exact hm p hp
  | cons t ts2 ih =>
      intro m hm hts p hp
      rw [List.foldl_cons] at hp
      exact ih _ (dictInsert_values m t.name (t.fn c) b hm (hts t (by simp)))
        (fun t2 ht2 => hts t2 (by simp [ht2])) p hp

theorem runTests_values (c : Curve) (b : Bool) (ts : List QTest)
    (hts : ∀ t ∈ ts, t.fn c = b) : ∀ p ∈ runTests c ts, p.2 = b := by
  unfold runTests
  exact runTests_fold_values c b ts [] (by simp) hts

theorem dictInsert_length (m : List (String × Bool)) (k : String) (v : Bool) :
    m.length ≤ (dictInsert m k v).length := by
  unfold dictInsert
  split
  · rw [List.length_map]
  · rw [List.length_append]
    omega

theorem runTests_fold_length (c : Curve) (ts : List QTest) :
    ∀ (m : List (String × Bool)),
      m.length ≤ (ts.foldl (fun m t => dictInsert m t.name (t.fn c)) m).length := by
  induction ts with
  | nil =>
      intro m
      simp
  | cons t ts2 ih =>
      intro m
      rw [List.foldl_cons]
      exact le_trans (dictInsert_length m t.name (t.fn c)) (ih _)

theorem runTests_ne_nil (c : Curve) (ts : List QTest) (h : ts ≠ []) :
    runTests c ts ≠ [] := by
  match ts, h with
  | t :: ts2, _ =>
      unfold runTests
      rw [List.foldl_cons]
      intro hnil
      have hlen := runTests_fold_length c ts2 (dictInsert [] t.name (t.fn c))
      rw [hnil] at hlen
      simp [dictInsert] at hlen

/-- C4: `quality_score` is exactly `-1` when zero tests are resolved, exactly
`1` when every resolved test returns true, `0` when every resolved test
returns false, and the fractional pass-rate of the result mapping otherwise
(curve.py:688-706). -/
theorem quality_score_spec (c : Curve) (tests : TestMap) (am : AliasMap) :
    (resolvedTests c tests am = [] → quality_score c tests am = -1) ∧
    (resolvedTests c tests am ≠ [] →
      ((∀ t ∈ resolvedTests c tests am, t.fn c = true) →
        quality_score c tests am = 1) ∧
      ((∀ t ∈ resolvedTests c tests am, t.fn c = false) →
        quality_score c tests am = 0) ∧
      quality_score c tests am =
        ((quality c tests am).countP (fun p => p.2) : ℚ) /
          ((quality c tests am).length : ℚ)) := by
  constructor
  · intro h
    unfold quality_score quality
    rw [h]
    simp [runTests]
  · intro hne
    have hqne : quality c tests am ≠ [] := runTests_ne_nil c _ hne
    have hlen : (quality c tests am).length ≠ 0 := by
      intro h0
      exact hqne (List.length_eq_zero.mp h0)
    have hlenq : ((quality c tests am).length : ℚ) ≠ 0 := by
      exact_mod_cast hlen
    refine ⟨?_, ?_, ?_⟩
    · intro hall
      have hvals : ∀ p ∈ quality c tests am, p.2 = true :=
        runTests_values c true _ hall
      unfold quality_score
      rw [if_neg hlen]
      rw [List.countP_eq_length.mpr (fun p hp => by simp [hvals p hp])]
      exact div_self hlenq
    · intro hall
      have hvals : ∀ p ∈ quality c tests am, p.2 = false :=
        runTests_values c false _ hall
      unfold quality_score
      rw [if_neg hlen]
      rw [List.countP_eq_zero.mpr (fun p hp => by simp [hvals p hp])]
      norm_num
    · unfold quality_score
      rw [if_neg hlen]

/-- Witness for C4 at four concrete instantiations: no tests → `-1`; a single
passing test → `1`; a single failing test → `0`; one of each → `1/2`. -/
theorem quality_score_spec_witness :
    quality_score ⟨[1], 0, 1, "GR"⟩ [] [] = -1 ∧
    quality_score ⟨[1], 0, 1, "GR"⟩
      [("GR", [some ⟨"tp", fun _ => true⟩])] [] = 1 ∧
    quality_score ⟨[1], 0, 1, "GR"⟩
      [("GR", [some ⟨"tf", fun _ => false⟩])] [] = 0 ∧
    quality_score ⟨[1], 0, 1, "GR"⟩
      [("GR", [some ⟨"tp", fun _ => true⟩,
               some ⟨"tf", fun _ => false⟩])] [] = 1 / 2 := by
  refine ⟨(quality_score_spec _ [] []).1 rfl, ?_, ?_, ?_⟩
  · have hres : resolvedTests ⟨[1], 0, 1, "GR"⟩
        [("GR", [some ⟨"tp", fun _ => true⟩])] [] =
        [⟨"tp", fun _ => true⟩] := by
      simp [resolvedTests, gatherTests, dictGetD, flatten_list, get_alias,
        List.lookup]
    refine ((quality_score_spec _ _ []).2 (by rw [hres]; simp)).1 ?_
    intro t ht
    rw [hres] at ht
    rw [List.mem_singleton.mp ht]
  · have hres : resolvedTests ⟨[1], 0, 1, "GR"⟩
        [("GR", [some ⟨"tf", fun _ => false⟩])] [] =
        [⟨"tf", fun _ => false⟩] := by
      simp [resolvedTests, gatherTests, dictGetD, flatten_list, get_alias,
        List.lookup]
    refine (((quality_score_spec _ _ []).2 (by rw [hres]; simp)).2.1 ?_)
    intro t ht
    rw [hres] at ht
    rw [List.mem_singleton.mp ht]
  · have hres : resolvedTests ⟨[1], 0, 1, "GR"⟩
        [("GR", [some ⟨"tp", fun _ => true⟩, some ⟨"tf", fun _ => false⟩])] [] =
        [⟨"tp", fun _ => true⟩, ⟨"tf", fun _ => false⟩] := by
      simp [resolvedTests, gatherTests, dictGetD, flatten_list, get_alias,
        List.lookup]
    have h := ((quality_score_spec ⟨[1], 0, 1, "GR"⟩ _ []).2
      (by rw [hres]; simp)).2.2
    rw [h]
    have hq : quality ⟨[1], 0, 1, "GR"⟩
        [("GR", [some ⟨"tp", fun _ => true⟩, some ⟨"tf", fun _ => false⟩])] [] =
        [("tp", true), ("tf", false)] := by
      unfold quality
      rw [hres]
      simp [runTests, dictInsert]
    rw [hq]
    norm_num [List.countP_cons, List.countP_nil]

/-- C5: an explicitly-registered empty test list under the curve's mnemonic
suppresses all accumulated tests in `quality` (curve.py:632-635), while
`qflag` on the same inputs applies no such suppression and still returns the
results of the wildcard and alias-group tests (curve.py:639-662). -/
theorem quality_empty_override (c : Curve) (tests : TestMap) (am : AliasMap)
    (h : tests.lookup c.mnemonic = some []) :
    quality c tests am = [] ∧
    qflag c tests am = runTests c
      ((dictGetD tests "each" ++ dictGetD tests "Each" ++ dictGetD tests "EACH"
        ++ flatten_list ((get_alias c am).map
            (fun a => tests.lookup a))).filterMap id) := by
  constructor
  · unfold quality resolvedTests
    rw [h]
    rfl
  · unfold qflag gatherTests dictGetD
    rw [h]
    simp

/-- Witness for C5: mnemonic `GR` registered with an empty list, one wildcard
test and one alias-group test: `quality` returns the empty mapping, `qflag`
still returns both results. -/
theorem quality_empty_override_witness :
    quality ⟨[1], 0, 1, "GR"⟩
      [("each", [some ⟨"te", fun _ => true⟩]),
       ("GR", ([] : List (Option QTest))),
       ("G9", [some ⟨"tg", fun _ => true⟩])]
      [("G9", ["GR"])] = [] ∧
    qflag ⟨[1], 0, 1, "GR"⟩
      [("each", [some ⟨"te", fun _ => true⟩]),
       ("GR", ([] : List (Option QTest))),
       ("G9", [some ⟨"tg", fun _ => true⟩])]
      [("G9", ["GR"])] = [("te", true), ("tg", true)] := by
  have h := quality_empty_override ⟨[1], 0, 1, "GR"⟩
    [("each", [some ⟨"te", fun _ => true⟩]),
     ("GR", ([] : List (Option QTest))),
     ("G9", [some ⟨"tg", fun _ => true⟩])]
    [("G9", ["GR"])] (by simp [List.lookup])
  refine ⟨h.1, ?_⟩
  rw [h.2]
  simp [runTests, dictGetD, flatten_list, get_alias, dictInsert, List.lookup]

/-- C10: `qflag` (curve.py:639-662) and `qflags` (curve.py:664-686) have
identical bodies — the same wildcard/mnemonic/alias gathering with falsy
entries filtered and no empty-override suppression — so they return equal
result mappings on every input. -/
theorem qflag_eq_qflags (c : Curve) (tests : TestMap) (am : AliasMap) :
    qflag c tests am = qflags c tests am := rfl

/-- `np.diff`: successive differences. -/
def npdiff (l : List ℚ) : List ℚ := (l.zip l.tail).map (fun p => p.2 - p.1)

/-- `np.mean`, as used by the irregularity check on the differences. -/
def mean (l : List ℚ) : ℚ := l.sum / (l.length : ℚ)

/-- `np.allclose(v, 0)` at the default tolerances `rtol=1e-5, atol=1e-8`
against the zero target: every entry within `1e-8` of zero. -/
def allclose0 (l : List ℚ) : Bool :=
  l.all (fun x => decide (|x| ≤ 1 / 100000000))

/-- Insertion into a sorted list (for the executable median). -/
def insertSorted (x : ℚ) : List ℚ → List ℚ
  | [] => [x]
  | y :: ys => if x ≤ y then x :: y :: ys else y :: insertSorted x ys

/-- Insertion sort, modelling the sort inside `np.nanmedian`. -/
def sortList (l : List ℚ) : List ℚ := l.foldr insertSorted []

/-- `np.nanmedian` on NaN-free data: the middle of the sorted values, or the
mean of the two middles for even length. -/
def median (l : List ℚ) : ℚ :=
  if l.length % 2 = 1 then (sortList l).getD (l.length / 2) 0
  else ((sortList l).getD (l.length / 2 - 1) 0 +
    (sortList l).getD (l.length / 2) 0) / 2

/-- `np.arange(start, stop, step)` for nonzero step of either sign:
`max(0, ceil((stop - start)/step))` points `start + i*step` — ascending for
positive step, descending for negative step with descending bounds (e.g.
`np.arange(5, 1e-5, -2.5) = [5, 2.5]`), empty when the bounds oppose the
step's direction.  A zero step raises `ValueError` in NumPy; the one modelled
caller (`from_lasio_curve`) guards that case explicitly, so the `[]` returned
here for step 0 is never reached. -/
def arangeList (start stop step : ℚ) : List ℚ :=
  if step = 0 then []
  else
    (List.range (⌈(stop - start) / step⌉.toNat)).map
      (fun i : ℕ => start + (i : ℚ) * step)

/-- `np.interp(x, xp, fp)`: piecewise-linear interpolation with edge
clamping (queries below `xp[0]` get `fp[0]`, above `xp[-1]` get `fp[-1]`). -/
def npInterp (xp fp : List ℚ) (x : ℚ) : ℚ :=
  if xp.length = 0 then 0
  else if x ≤ xp.getD 0 0 then fp.getD 0 0
  else if xp.getD (xp.length - 1) 0 ≤ x then fp.getD (fp.length - 1) 0
  else
    fp.getD (min (xp.countP (fun t => decide (t ≤ x)) - 1) (xp.length - 2)) 0 +
      (x - xp.getD (min (xp.countP (fun t => decide (t ≤ x)) - 1)
          (xp.length - 2)) 0) *
        (fp.getD (min (xp.countP (fun t => decide (t ≤ x)) - 1)
            (xp.length - 2) + 1) 0 -
         fp.getD (min (xp.countP (fun t => decide (t ≤ x)) - 1)
            (xp.length - 2)) 0) /
        (xp.getD (min (xp.countP (fun t => decide (t ≤ x)) - 1)
            (xp.length - 2) + 1) 0 -
         xp.getD (min (xp.countP (fun t => decide (t ≤ x)) - 1)
            (xp.length - 2)) 0)

/-- The slice of a lasio curve object that `from_lasio_curve` reads: the raw
data and the mnemonic (description, unit and API code are carried as params
no claim touches). -/
structure LasioCurve where
  data : List ℚ
  mnemonic : String

/-- Final stage of `from_lasio_curve` (curve.py:233-254): when the effective
step is zero, derive it from a stop depth — `(stop - start) /
(curve.data.shape[0] - 1)`, with the ORIGINAL lasio data length — or raise;
then build the Curve. -/
def from_lasio_mk (curve : LasioCurve) (data : List ℚ) (s : ℚ)
    (stop1 : Option ℚ) (step1 : ℚ) (warned : Bool) :
    Except String (Curve × Bool) :=
  if step1 = 0 then
    match stop1 with
    | none => Except.error "You must provide a step or a stop depth."
    | some st =>
        Except.ok (⟨data, s, (st - s) / ((curve.data.length : ℚ) - 1),
          curve.mnemonic⟩, warned)
  else Except.ok (⟨data, s, step1, curve.mnemonic⟩, warned)

/-- Middle stage of `from_lasio_curve` (curve.py:226-231): when no start is
set, read `basis[0]` and `basis[1] - basis[0]` from an explicit basis (an
`IndexError` on fewer than two points) or raise. -/
def from_lasio_tail (curve : LasioCurve) (data : List ℚ)
    (start1 stop1 : Option ℚ) (step1 : ℚ) (basisArg : Option (List ℚ))
    (warned : Bool) : Except String (Curve × Bool) :=
  match start1 with
  | some s => from_lasio_mk curve data s stop1 step1 warned
  | none =>
      match basisArg with
      | some b =>
          if b.length < 2 then Except.error "IndexError: basis[0] / basis[1]"
          else from_lasio_mk curve data (b.getD 0 0) stop1
            (b.getD 1 0 - b.getD 0 0) warned
      | none => Except.error "You must provide a basis or a start depth."

/-- `Curve.from_lasio_curve` (curve.py:174-254), geometry logic.  The first
stage (curve.py:209-224) handles a supplied depth array: test
`np.allclose(d - d.mean(), 0)` on the successive differences `d`; if they are
not all equal within tolerance, emit the irregular-sampling warning (the
returned Bool), take the median difference as step, build the uniform basis
`np.arange(depth[0], depth[-1] + 0.00001, step)` and linearly interpolate the
raw data onto it; if regular, take the median difference and `depth[0]`
directly.  `Except.error` models a raised exception (`CurveError`, or NumPy's
`ValueError` when `np.arange` receives a zero step). -/
def from_lasio_curve (curve : LasioCurve) (depth : Option (List ℚ))
    (basisArg : Option (List ℚ)) (start0 stop0 : Option ℚ) (step0 : ℚ) :
    Except String (Curve × Bool) :=
  match depth with
  | none => from_lasio_tail curve curve.data start0 stop0 step0 basisArg false
  | some dep =>
      if allclose0 ((npdiff dep).map (fun x => x - mean (npdiff dep))) then
        from_lasio_tail curve curve.data (some (dep.getD 0 0)) stop0
          (median (npdiff dep)) basisArg false
      else if median (npdiff dep) = 0 then
        Except.error "ValueError: np.arange with zero step"
      else
        from_lasio_tail curve
          ((arangeList (dep.getD 0 0)
              (dep.getD (dep.length - 1) 0 + 1 / 100000)
              (median (npdiff dep))).map (npInterp dep curve.data))
          (some (dep.getD 0 0))
          (some (dep.getD (dep.length - 1) 0 + 1 / 100000))
          (median (npdiff dep)) basisArg true

/-- C9 amended: a depth array whose successive differences are not all equal
within tolerance AND whose median difference is positive (a genuinely
ascending depth log) never raises: construction succeeds with the
irregular-sampling warning, the step is the median difference, the basis is
the uniform `np.arange(depth[0], depth[-1] + 1e-5, step)` progression, and
the stored samples are the raw data linearly interpolated onto that basis —
regardless of any basis/start/stop/step arguments also supplied.  The
positivity restriction is forced: at median difference zero the code
hard-fails (see the counterexample), and for a negative median difference
(descending depths) no exception is raised but the data is fed to `np.interp`
with a decreasing coordinate array, whose output NumPy documents as
undefined, so no interpolation statement holds there. -/
theorem from_lasio_irregular (curve : LasioCurve) (dep : List ℚ)
    (basisArg : Option (List ℚ)) (start0 stop0 : Option ℚ) (step0 : ℚ)
    (hirr : allclose0 ((npdiff dep).map (fun x => x - mean (npdiff dep))) = false)
    (hmed : 0 < median (npdiff dep)) :
    from_lasio_curve curve (some dep) basisArg start0 stop0 step0 =
      Except.ok (⟨(arangeList (dep.getD 0 0)
          (dep.getD (dep.length - 1) 0 + 1 / 100000)
          (median (npdiff dep))).map (npInterp dep curve.data),
        dep.getD 0 0, median (npdiff dep), curve.mnemonic⟩, true) := by
  simp only [from_lasio_curve]
  rw [hirr]
  rw [if_neg (by simp)]
  rw [if_neg (ne_of_gt hmed)]
  simp only [from_lasio_tail, from_lasio_mk]
  rw [if_neg (ne_of_gt hmed)]

/-- Witness for C9 at the spec's own example shape: depth `[0,1,2,4]`
(differences `[1,1,2]`, irregular, median 1) with data `[0,2,4,8]`: the
result is the resampling onto `[0,1,2,3,4]` — `[0,2,4,6,8]` — with start 0,
step 1, and the warning flag set. -/
theorem from_lasio_irregular_witness :
    from_lasio_curve ⟨[0, 2, 4, 8], "GR"⟩ (some [0, 1, 2, 4]) none none none
      (1524 / 10000) =
      Except.ok (⟨[0, 2, 4, 6, 8], 0, 1, "GR"⟩, true) := by
  have hmed1 : median (npdiff [0, 1, 2, 4]) = 1 := by
    norm_num [median, npdiff, sortList, insertSorted]
  have h := from_lasio_irregular ⟨[0, 2, 4, 8], "GR"⟩ [0, 1, 2, 4] none none
    none (1524 / 10000) ?hirr (by rw [hmed1]; norm_num)
  case hirr =>
    simp only [allclose0, npdiff, mean]
    norm_num [abs_le]
  have harange : arangeList (([0, 1, 2, 4] : List ℚ).getD 0 0)
      (([0, 1, 2, 4] : List ℚ).getD (([0, 1, 2, 4] : List ℚ).length - 1) 0
        + 1 / 100000) 1 = [0, 1, 2, 3, 4] := by
    simp only [List.getD_cons_zero, List.getD_cons_succ, List.length_cons,
      List.length_nil]
    unfold arangeList
    rw [if_neg (by norm_num : ¬ (1:ℚ) = 0)]
    rw [show ⌈((4:ℚ) + 1 / 100000 - 0) / 1⌉ = 5 from by
      rw [Int.ceil_eq_iff]
      norm_num]
    rw [show ((5:ℤ)).toNat = 5 from rfl]
    norm_num [List.range_succ]
  rw [h, hmed1, harange]
  norm_num [npInterp, List.countP_cons, List.countP_nil, Curve.mk.injEq]

/-- C9 counterexample: the depth array `[0,0,0,5]` is in the claim's scope —
its successive differences `[0,0,5]` are not all equal within tolerance (the
first conjunct) — yet its median difference is 0, so the irregular branch
calls `np.arange(0, 5.00001, 0)` (curve.py:219), which raises `ValueError`: a
hard construction failure, refuting "never a hard failure". -/
theorem from_lasio_zero_median_counterexample :
    allclose0 ((npdiff [0, 0, 0, 5]).map
      (fun x => x - mean (npdiff [0, 0, 0, 5]))) = false ∧
    from_lasio_curve ⟨[1, 2, 3, 4], "GR"⟩ (some [0, 0, 0, 5]) none none none
      (1524 / 10000) =
      Except.error "ValueError: np.arange with zero step" := by
  have hirr : allclose0 ((npdiff [0, 0, 0, 5]).map
      (fun x => x - mean (npdiff [0, 0, 0, 5]))) = false := by
    simp only [allclose0, npdiff, mean]
    norm_num [abs_le]
  have hmed : median (npdiff [0, 0, 0, 5]) = 0 := by
    norm_num [median, npdiff, sortList, insertSorted]
  refine ⟨hirr, ?_⟩
  simp only [from_lasio_curve]
  rw [hirr]
  rw [if_neg (by simp)]
  rw [if_pos hmed]

end Welly
